import Mathlib

/-!
Shallow embedding of the two notebooks of the repository
COMP4332-Big-Data-Mining-and-Management-PAs.

Rating pipeline (Project 3, NCF method notebook): the vocabulary builder
over user and business IDs, the serving-time lookup lambdas for the
validation and test sets, the rmse metric, and the control flow of
build_ncf_model.

Sentiment pipeline (Project 1, inference notebook): the load_data column
selection with its fallback, and the SAM model predict method (argmax of a
softmax over the class logits, plus one).

Python dicts are embedded as association lists with insertion-order and
overwrite-in-place semantics; numpy arrays as lists of rationals; functions
that raise are embedded with Option or Except results.
-/

set_option autoImplicit false

namespace NCF

/-- Helper for uniqueFirst: keep the first occurrence of each value not
already seen. -/
def uniqueFirstAux (seen : List String) : List String → List String
  | [] => []
  | x :: xs =>
      if x ∈ seen then uniqueFirstAux seen xs
      else x :: uniqueFirstAux (x :: seen) xs

/-- Models pandas Series.unique on the training ID column: the distinct
values in first-seen order. -/
def uniqueFirst (ids : List String) : List String :=
  uniqueFirstAux [] ids

/-- Models dict lookup on an association list: value of the first entry
whose key matches. -/
def dictLookup (d : List (String × ℕ)) (k : String) : Option ℕ :=
  (d.find? fun p => p.1 = k).map Prod.snd

/-- Models Python dict assignment d[k] = v: if the key is present its value
is overwritten in place, otherwise the entry is appended at the end. -/
def dictInsert : List (String × ℕ) → String → ℕ → List (String × ℕ)
  | [], k, v => [(k, v)]
  | (k', v') :: d, k, v =>
      if k' = k then (k', v) :: d else (k', v') :: dictInsert d k v

/-- Models dict(zip(ids, range(k, k + len(ids)))): pair each ID with
consecutive integers starting from k. -/
def vocabZip : List String → ℕ → List (String × ℕ)
  | [], _ => []
  | x :: xs, k => (x, k) :: vocabZip xs (k + 1)

/-- Models the vocabulary construction of the notebook: user_set (or
business_set) is the list of distinct training IDs in first-seen order,
zipped with indices 1..N, after which the reserved entry unk is assigned 0
by dict assignment. -/
def buildVocab (ids : List String) : List (String × ℕ) :=
  dictInsert (vocabZip (uniqueFirst ids) 1) "unk" 0

/-- Models n_users = len(user_vocab) and n_items = len(business_vocab). -/
def vocabSize (ids : List String) : ℕ :=
  (buildVocab ids).length

/-- Models the serving-time lookup lambda of the notebook, written as
vocab[x] if x in vocab else 0, applied to validation and test IDs. -/
def servingLookup (vocab : List (String × ℕ)) (x : String) : ℕ :=
  if x ∈ vocab.map Prod.fst then (dictLookup vocab x).getD 0 else 0

/-- Models numpy nonzero on a one-dimensional array: the indices of the
nonzero entries, in ascending order. -/
def npNonzero : List ℚ → List ℕ
  | [] => []
  | a :: as =>
      if a = 0 then (npNonzero as).map (· + 1)
      else 0 :: (npNonzero as).map (· + 1)

/-- Models numpy fancy indexing xs[idxs] for a list of in-range indices
(out-of-range indices, which numpy rejects, are skipped). -/
def npSelect (xs : List ℚ) : List ℕ → List ℚ
  | [] => []
  | i :: is =>
      match xs[i]? with
      | some v => v :: npSelect xs is
      | none => npSelect xs is

/-- Models sklearn.metrics.mean_squared_error, including its input
validation: it raises (here: none) when the arrays have different lengths
or contain no samples; otherwise it returns the mean of the squared
differences. -/
def mean_squared_error (y_true y_pred : List ℚ) : Option ℚ :=
  if y_true.length = y_pred.length ∧ y_true ≠ [] then
    some ((((y_true.zip y_pred).map fun p => (p.1 - p.2) ^ 2).sum) /
      (y_true.length : ℚ))
  else none

/-- Models the rmse function of the notebook: select the entries of pred
and actual at the indices where actual is nonzero, then take the square
root of their mean squared error. -/
noncomputable def rmse (pred actual : List ℚ) : Option ℝ :=
  (mean_squared_error (npSelect pred (npNonzero actual))
      (npSelect actual (npNonzero actual))).map
    fun m : ℚ => Real.sqrt (m : ℝ)

/-- The pairs of corresponding pred and actual entries whose actual value
is nonzero; this follows the wording of the specification for the rmse
filtering step and is related to the source embedding by theorem. -/
def pairedNonzero (pred actual : List ℚ) : List (ℚ × ℚ) :=
  (pred.zip actual).filter fun p => p.2 ≠ 0

/-- The mean of the squared differences over the pairs kept by
pairedNonzero; this follows the wording of the specification. -/
def mseSpec (pred actual : List ℚ) : ℚ :=
  (((pairedNonzero pred actual).map fun p => (p.1 - p.2) ^ 2).sum) /
    ((pairedNonzero pred actual).length : ℚ)

/-- The kind of output layer a constructed NCF model ends in. -/
inductive NCFOutput where
  | dot
  | mlp
deriving DecidableEq

/-- The data of a constructed NCF model, as fixed by the arguments of
build_ncf_model (the keras layers themselves are the black-box part). -/
structure NCFModel where
  n_users : ℕ
  n_items : ℕ
  embed_size : ℕ
  dropout : ℚ
  output : NCFOutput
deriving DecidableEq

/-- Models the control flow of build_ncf_model: the dot branch, the mlp
branch, and the else branch that raises NotImplementedError. -/
def build_ncf_model (n_users n_items embed_size : ℕ) (dropout : ℚ)
    (output_layer : String) : Except String NCFModel :=
  if output_layer = "dot" then
    Except.ok ⟨n_users, n_items, embed_size, dropout, NCFOutput.dot⟩
  else if output_layer = "mlp" then
    Except.ok ⟨n_users, n_items, embed_size, dropout, NCFOutput.mlp⟩
  else
    Except.error "NotImplementedError"

/-- The two vocabularies held by the rating pipeline after construction. -/
structure Vocabs where
  user_vocab : List (String × ℕ)
  business_vocab : List (String × ℕ)

/-- Models Series.apply of the serving-time lookup lambda over a whole ID
column. -/
def applyLookupColumn (vocab : List (String × ℕ)) (col : List String) :
    List ℕ :=
  col.map (servingLookup vocab)

/-- Models the serving phase of the notebook as state-passing code: the
validation and test user and item columns are mapped through the lookup
lambdas, and the vocabulary state is threaded through. -/
def servingPhase (st : Vocabs) (valU valP testU testP : List String) :
    (List ℕ × List ℕ × List ℕ × List ℕ) × Vocabs :=
  let val_users := applyLookupColumn st.user_vocab valU
  let val_items := applyLookupColumn st.business_vocab valP
  let test_users := applyLookupColumn st.user_vocab testU
  let test_items := applyLookupColumn st.business_vocab testP
  ((val_users, val_items, test_users, test_items), st)

end NCF

namespace Sentiment

/-- A loaded CSV dataframe: named columns in order, each with its values. -/
structure DataFrame where
  cols : List (String × List String)
deriving DecidableEq

/-- The column names of a dataframe, in order. -/
def DataFrame.colNames (df : DataFrame) : List String :=
  df.cols.map Prod.fst

/-- The values of a named column (empty when absent; selection only reads
present columns). -/
def DataFrame.getCol (df : DataFrame) (c : String) : List String :=
  ((df.cols.find? fun p => p.1 = c).map Prod.snd).getD []

/-- Models df.loc[:, columns]: when every requested column is present the
projection onto those columns in the requested order, otherwise a raised
KeyError (here: none). -/
def locSelect (df : DataFrame) (columns : List String) : Option DataFrame :=
  if ∀ c ∈ columns, c ∈ df.colNames then
    some ⟨columns.map fun c => (c, df.getCol c)⟩
  else none

/-- Models load_data of the inference notebook: try to select the requested
columns from the loaded CSV; on failure print a console message and return
the dataframe with all columns. The second component is the console
output. -/
def load_data (csv : DataFrame) (split_name : String)
    (columns : List String) : DataFrame × List String :=
  let header := "select [" ++ String.intercalate ", " columns ++
    "] columns from the " ++ split_name ++ " split"
  match locSelect csv columns with
  | some df => (df, [header, "Success"])
  | none =>
      (csv, [header,
        "Failed loading specified columns... Returning all columns from the "
          ++ split_name ++ " split"])

/-- Models torch softmax over a one-dimensional tensor of logits. -/
noncomputable def softmax (xs : List ℝ) : List ℝ :=
  xs.map fun x => Real.exp x / (xs.map Real.exp).sum

/-- Models torch argmax over a one-dimensional tensor: the first index
attaining the maximum (zero on an empty tensor). -/
noncomputable def argmaxIdx : List ℝ → ℕ
  | [] => 0
  | [_] => 0
  | x :: y :: ys =>
      if x < (y :: ys).getD (argmaxIdx (y :: ys)) 0 then
        argmaxIdx (y :: ys) + 1
      else 0

/-- The SAM classifier of the inference notebook. The tokenizer, the
pretrained encoder and the linear head together are the black-box map from
input text to the class logits; the linear head nn.Linear(768, class_num)
fixes the number of logits to class_num. -/
structure SAM where
  class_num : ℕ
  logitsOf : String → List ℝ
  logits_len : ∀ t, (logitsOf t).length = class_num

/-- Models SAM.predict: the returned label is the argmax of the softmax of
the class logits, plus one. -/
noncomputable def SAM.predict (m : SAM) (t : String) : ℕ :=
  argmaxIdx (softmax (m.logitsOf t)) + 1

/-- A concrete SAM instance with class_num = 5, the configuration used in
the notebook, with a fixed black-box logits map. -/
noncomputable def samFive : SAM :=
  ⟨5, fun _ => [0, 1, 0, 0, 0], fun _ => rfl⟩

end Sentiment

namespace NCF

theorem mem_uniqueFirstAux (l : List String) :
    ∀ (seen : List String) (x : String),
      x ∈ uniqueFirstAux seen l ↔ x ∈ l ∧ x ∉ seen := by
  induction l with
  | nil => intro seen x; simp [uniqueFirstAux]
  | cons a as ih =>
      intro seen x
      by_cases ha : a ∈ seen
      · rw [uniqueFirstAux, if_pos ha, ih]
        constructor
        · rintro ⟨h1, h2⟩
          exact ⟨List.mem_cons_of_mem _ h1, h2⟩
        · rintro ⟨h1, h2⟩
          rcases List.mem_cons.mp h1 with h1 | h1
          · exact absurd (h1 ▸ ha) h2
          · exact ⟨h1, h2⟩
      · rw [uniqueFirstAux, if_neg ha]
        by_cases hx : x = a
        · subst hx
          simp [ha]
        · rw [List.mem_cons]
          constructor
          · rintro (h | h)
            · exact absurd h hx
            · rcases (ih _ _).mp h with ⟨h1, h2⟩
              refine ⟨List.mem_cons_of_mem _ h1, fun hc => h2 ?_⟩
              exact List.mem_cons_of_mem _ hc
          · rintro ⟨h1, h2⟩
            rcases List.mem_cons.mp h1 with h1 | h1
            · exact absurd h1 hx
            · refine Or.inr ((ih _ _).mpr ⟨h1, fun hc => ?_⟩)
              rcases List.mem_cons.mp hc with hc | hc
              · exact hx hc
              · exact h2 hc

theorem mem_uniqueFirst (ids : List String) (x : String) :
    x ∈ uniqueFirst ids ↔ x ∈ ids := by
  rw [uniqueFirst, mem_uniqueFirstAux]
  simp

theorem nodup_uniqueFirstAux (l : List String) :
    ∀ seen : List String, (uniqueFirstAux seen l).Nodup := by
  induction l with
  | nil => intro seen; simp [uniqueFirstAux]
  | cons a as ih =>
      intro seen
      by_cases ha : a ∈ seen
      · rw [uniqueFirstAux, if_pos ha]; exact ih seen
      · rw [uniqueFirstAux, if_neg ha]
        refine List.nodup_cons.mpr ⟨fun hc => ?_, ih _⟩
        exact ((mem_uniqueFirstAux as _ a).mp hc).2 (List.mem_cons_self a seen)

theorem nodup_uniqueFirst (ids : List String) : (uniqueFirst ids).Nodup :=
  nodup_uniqueFirstAux ids []

theorem keys_vocabZip (u : List String) :
    ∀ k : ℕ, (vocabZip u k).map Prod.fst = u := by
  induction u with
  | nil => intro k; rfl
  | cons a as ih => intro k; simp [vocabZip, ih]

theorem length_vocabZip (u : List String) :
    ∀ k : ℕ, (vocabZip u k).length = u.length := by
  induction u with
  | nil => intro k; rfl
  | cons a as ih => intro k; simp [vocabZip, ih]

theorem dictLookup_cons (k' : String) (v' : ℕ) (d : List (String × ℕ))
    (k : String) :
    dictLookup ((k', v') :: d) k = if k' = k then some v' else dictLookup d k := by
  by_cases h : k' = k
  · rw [dictLookup, List.find?_cons_of_pos _ (by simpa using h), if_pos h]
    rfl
  · rw [dictLookup, List.find?_cons_of_neg _ (by simpa using h), if_neg h]
    rfl

theorem dictLookup_vocabZip (u : List String) (hnd : u.Nodup) :
    ∀ (k j : ℕ) (hj : j < u.length),
      dictLookup (vocabZip u k) (u.get ⟨j, hj⟩) = some (k + j) := by
  induction u with
  | nil => intro k j hj; simp at hj
  | cons a as ih =>
      intro k j hj
      cases j with
      | zero => simp [vocabZip, dictLookup_cons]
      | succ j' =>
          have hj' : j' < as.length := Nat.lt_of_succ_lt_succ hj
          have hget : (a :: as).get ⟨j' + 1, hj⟩ = as.get ⟨j', hj'⟩ := rfl
          have hmem : as.get ⟨j', hj'⟩ ∈ as := List.get_mem as j' hj'
          have hne : ¬ (a = as.get ⟨j', hj'⟩) := by
            intro hEq
            exact (List.nodup_cons.mp hnd).1 (hEq ▸ hmem)
          rw [hget, vocabZip, dictLookup_cons, if_neg hne]
          rw [ih (List.nodup_cons.mp hnd).2 (k + 1) j' hj']
          congr 1
          omega

theorem dictLookup_eq_none_iff (d : List (String × ℕ)) (k : String) :
    dictLookup d k = none ↔ k ∉ d.map Prod.fst := by
  induction d with
  | nil => simp [dictLookup]
  | cons p d ih =>
      cases p with
      | mk k' v' =>
          rw [dictLookup_cons, List.map_cons, List.mem_cons]
          by_cases h : k' = k
          · simp [h]
          · rw [if_neg h]
            constructor
            · intro hn hc
              rcases hc with hc | hc
              · exact h hc.symm
              · exact ih.mp hn hc
            · intro hn
              exact ih.mpr fun hc => hn (Or.inr hc)

theorem dictLookup_append_left (d e : List (String × ℕ)) (k : String)
    (i : ℕ) (h : dictLookup d k = some i) :
    dictLookup (d ++ e) k = some i := by
  induction d with
  | nil => simp [dictLookup] at h
  | cons p d ih =>
      cases p with
      | mk k' v' =>
          rw [dictLookup_cons] at h
          rw [List.cons_append, dictLookup_cons]
          by_cases hk : k' = k
          · rw [if_pos hk] at h
            rw [if_pos hk]
            exact h
          · rw [if_neg hk] at h
            rw [if_neg hk]
            exact ih h

theorem dictLookup_append_right (d : List (String × ℕ)) (k : String)
    (v : ℕ) (hk : k ∉ d.map Prod.fst) :
    dictLookup (d ++ [(k, v)]) k = some v := by
  induction d with
  | nil => rw [List.nil_append, dictLookup_cons, if_pos rfl]
  | cons p d ih =>
      cases p with
      | mk k' v' =>
          rw [List.map_cons, List.mem_cons] at hk
          push_neg at hk
          rw [List.cons_append, dictLookup_cons,
            if_neg (fun hc => hk.1 hc.symm)]
          exact ih hk.2

theorem dictInsert_of_not_mem (d : List (String × ℕ)) (k : String) (v : ℕ)
    (h : k ∉ d.map Prod.fst) : dictInsert d k v = d ++ [(k, v)] := by
  induction d with
  | nil => rfl
  | cons p d ih =>
      rw [List.map_cons, List.mem_cons] at h
      push_neg at h
      cases p with
      | mk k' v' =>
          rw [dictInsert, if_neg (fun hc => h.1 hc.symm), List.cons_append,
            ih h.2]

theorem length_dictInsert_of_mem (d : List (String × ℕ)) (k : String)
    (v : ℕ) (h : k ∈ d.map Prod.fst) :
    (dictInsert d k v).length = d.length := by
  induction d with
  | nil => simp at h
  | cons p d ih =>
      cases p with
      | mk k' v' =>
          by_cases hk : k' = k
          · rw [dictInsert, if_pos hk]
            simp
          · rw [dictInsert, if_neg hk, List.length_cons, List.length_cons,
              ih]
            rw [List.map_cons, List.mem_cons] at h
            rcases h with h | h
            · exact absurd h.symm hk
            · exact h

theorem dictLookup_dictInsert_self (d : List (String × ℕ)) (k : String)
    (v : ℕ) : dictLookup (dictInsert d k v) k = some v := by
  induction d with
  | nil => rw [dictInsert, dictLookup_cons, if_pos rfl]
  | cons p d ih =>
      cases p with
      | mk k' v' =>
          by_cases hk : k' = k
          · rw [dictInsert, if_pos hk, dictLookup_cons, if_pos hk]
          · rw [dictInsert, if_neg hk, dictLookup_cons, if_neg hk]
            exact ih

end NCF

namespace NCF

/-- C1 (amended): for every sequence of raw training IDs in which no ID is
the literal string unk, the constructed vocabulary maps the distinct raw
IDs, in first-seen order, bijectively onto the indices 1..N, where N is the
number of distinct IDs, and the reserved key unk maps to 0. -/
theorem vocab_builder_first_seen (ids : List String) (h : "unk" ∉ ids) :
    dictLookup (buildVocab ids) "unk" = some 0 ∧
    (uniqueFirst ids).Nodup ∧
    (∀ x, x ∈ ids ↔ x ∈ uniqueFirst ids) ∧
    (∀ j, ∀ hj : j < (uniqueFirst ids).length,
        dictLookup (buildVocab ids) ((uniqueFirst ids).get ⟨j, hj⟩) =
          some (j + 1)) ∧
    (∀ x ∈ ids, ∃ i, dictLookup (buildVocab ids) x = some i ∧
        1 ≤ i ∧ i ≤ (uniqueFirst ids).length) ∧
    (∀ i, 1 ≤ i → i ≤ (uniqueFirst ids).length →
        ∃ x ∈ ids, dictLookup (buildVocab ids) x = some i) := by
  have hu : "unk" ∉ uniqueFirst ids :=
    fun hc => h ((mem_uniqueFirst ids "unk").mp hc)
  have hk : "unk" ∉ (vocabZip (uniqueFirst ids) 1).map Prod.fst := by
    rw [keys_vocabZip]
    exact hu
  have hb : buildVocab ids = vocabZip (uniqueFirst ids) 1 ++ [("unk", 0)] := by
    rw [buildVocab, dictInsert_of_not_mem _ _ _ hk]
  have hnd := nodup_uniqueFirst ids
  have hidx : ∀ j, ∀ hj : j < (uniqueFirst ids).length,
      dictLookup (buildVocab ids) ((uniqueFirst ids).get ⟨j, hj⟩) =
        some (j + 1) := by
    intro j hj
    rw [hb, dictLookup_append_left _ _ _ _
      (dictLookup_vocabZip (uniqueFirst ids) hnd 1 j hj)]
    congr 1
    omega
  refine ⟨?_, hnd, ?_, hidx, ?_, ?_⟩
  · rw [hb]
    exact dictLookup_append_right _ _ _ hk
  · intro x
    exact (mem_uniqueFirst ids x).symm
  · intro x hx
    have hxu : x ∈ uniqueFirst ids := (mem_uniqueFirst ids x).mpr hx
    obtain ⟨n, hn⟩ := List.mem_iff_get.mp hxu
    refine ⟨n.1 + 1, ?_, Nat.le_add_left 1 n.1, Nat.succ_le_of_lt n.2⟩
    have := hidx n.1 n.2
    rwa [hn] at this
  · intro i h1 h2
    have hbound : i - 1 < (uniqueFirst ids).length := by omega
    refine ⟨(uniqueFirst ids).get ⟨i - 1, hbound⟩, ?_, ?_⟩
    · exact (mem_uniqueFirst ids _).mp (List.get_mem _ _ _)
    · rw [hidx (i - 1) hbound]
      congr 1
      omega

/-- Witness for vocab_builder_first_seen at a concrete ID sequence. -/
theorem vocab_builder_first_seen_witness :
    dictLookup (buildVocab ["u1", "u2", "u1"]) "unk" = some 0 :=
  (vocab_builder_first_seen ["u1", "u2", "u1"] (by decide)).1

/-- C1 counterexample: for the concrete training sequence whose only ID is
the literal string unk, the claim as stated requires that ID to receive
index 1, but the reserved assignment overwrites it, so it maps to 0. -/
theorem vocab_builder_unk_collision_cex :
    (uniqueFirst ["unk"]).length = 1 ∧
    dictLookup (buildVocab ["unk"]) "unk" = some 0 ∧
    dictLookup (buildVocab ["unk"]) "unk" ≠ some 1 := by
  decide

/-- C3: the serving-time index lookup used for the validation and test
sets returns 0 for an ID absent from the vocabulary and the stored index
for an ID present in it. -/
theorem unseen_key_fallback (ids : List String) (x : String) :
    (dictLookup (buildVocab ids) x = none →
      servingLookup (buildVocab ids) x = 0) ∧
    ∀ i, dictLookup (buildVocab ids) x = some i →
      servingLookup (buildVocab ids) x = i := by
  constructor
  · intro h
    rw [servingLookup, if_neg ((dictLookup_eq_none_iff _ _).mp h)]
  · intro i h
    have hx : x ∈ (buildVocab ids).map Prod.fst := by
      by_contra hc
      rw [(dictLookup_eq_none_iff _ _).mpr hc] at h
      exact Option.noConfusion h
    rw [servingLookup, if_pos hx, h]
    rfl

/-- Witness for unseen_key_fallback: an unseen user resolves to index 0. -/
theorem unseen_key_fallback_witness :
    servingLookup (buildVocab ["u1"]) "u3" = 0 :=
  (unseen_key_fallback ["u1"] "u3").1 (by decide)

/-- C5: when some raw training ID equals the literal string unk, the
reserved assignment overwrites its positive index with 0 and the
vocabulary size equals the number N of distinct IDs; the size equals
N + 1 exactly when no training ID is the literal string unk. -/
theorem unk_collision_size (ids : List String) :
    ("unk" ∈ ids →
      dictLookup (buildVocab ids) "unk" = some 0 ∧
      vocabSize ids = (uniqueFirst ids).length) ∧
    ("unk" ∉ ids → vocabSize ids = (uniqueFirst ids).length + 1) ∧
    (vocabSize ids = (uniqueFirst ids).length + 1 ↔ "unk" ∉ ids) := by
  have hmem : "unk" ∈ (vocabZip (uniqueFirst ids) 1).map Prod.fst ↔
      "unk" ∈ ids := by
    rw [keys_vocabZip, mem_uniqueFirst]
  have hin : "unk" ∈ ids → vocabSize ids = (uniqueFirst ids).length := by
    intro h
    rw [vocabSize, buildVocab, length_dictInsert_of_mem _ _ _ (hmem.mpr h),
      length_vocabZip]
  have hout : "unk" ∉ ids →
      vocabSize ids = (uniqueFirst ids).length + 1 := by
    intro h
    rw [vocabSize, buildVocab,
      dictInsert_of_not_mem _ _ _ (fun hc => h (hmem.mp hc)),
      List.length_append, length_vocabZip]
    rfl
  refine ⟨fun h => ⟨dictLookup_dictInsert_self _ _ _, hin h⟩, hout, ?_, hout⟩
  intro hsz hc
  have := hin hc
  omega

/-- Witness for unk_collision_size: a training sequence containing unk. -/
theorem unk_collision_size_witness :
    dictLookup (buildVocab ["u1", "unk"]) "unk" = some 0 ∧
    vocabSize ["u1", "unk"] = (uniqueFirst ["u1", "unk"]).length :=
  (unk_collision_size ["u1", "unk"]).1 (by decide)

/-- C9: mapping the validation and test ID columns through the
serving-time lookup lambdas leaves both vocabularies unchanged: every key
has the same lookup result, and the key lists are identical. -/
theorem vocab_immutable_serving (st : Vocabs)
    (valU valP testU testP : List String) :
    (∀ k,
      dictLookup ((servingPhase st valU valP testU testP).2).user_vocab k =
        dictLookup st.user_vocab k) ∧
    (∀ k,
      dictLookup
          ((servingPhase st valU valP testU testP).2).business_vocab k =
        dictLookup st.business_vocab k) ∧
    ((servingPhase st valU valP testU testP).2).user_vocab.map Prod.fst =
      st.user_vocab.map Prod.fst ∧
    ((servingPhase st valU valP testU testP).2).business_vocab.map
        Prod.fst =
      st.business_vocab.map Prod.fst :=
  ⟨fun _ => rfl, fun _ => rfl, rfl, rfl⟩

/-- C10: build_ncf_model raises NotImplementedError exactly when its
output_layer argument is neither dot nor mlp, and returns a constructed
model when it is one of the two. -/
theorem build_ncf_model_guard (n_users n_items embed_size : ℕ)
    (dropout : ℚ) (output_layer : String) :
    ((output_layer ≠ "dot" ∧ output_layer ≠ "mlp") →
      build_ncf_model n_users n_items embed_size dropout output_layer =
        Except.error "NotImplementedError") ∧
    ((output_layer = "dot" ∨ output_layer = "mlp") →
      ∃ m, build_ncf_model n_users n_items embed_size dropout output_layer =
        Except.ok m) := by
  constructor
  · rintro ⟨h1, h2⟩
    rw [build_ncf_model, if_neg h1, if_neg h2]
  · rintro (h | h) <;> subst h
    · exact ⟨_, by rw [build_ncf_model, if_pos rfl]⟩
    · exact ⟨_, by rw [build_ncf_model, if_neg (by decide), if_pos rfl]⟩

/-- Witness for build_ncf_model_guard at a rejected output layer name. -/
theorem build_ncf_model_guard_witness :
    build_ncf_model 3 4 16 0 "combine" =
      Except.error "NotImplementedError" :=
  (build_ncf_model_guard 3 4 16 0 "combine").1 (by decide)

end NCF

namespace NCF

theorem pairedNonzero_cons (p a : ℚ) (ps as : List ℚ) :
    pairedNonzero (p :: ps) (a :: as) =
      if a = 0 then pairedNonzero ps as
      else (p, a) :: pairedNonzero ps as := by
  rw [pairedNonzero, List.zip_cons_cons, List.filter_cons]
  by_cases ha : a = 0 <;> simp [ha, pairedNonzero]

theorem npSelect_cons_some (xs : List ℚ) (i : ℕ) (is : List ℕ) (v : ℚ)
    (h : xs[i]? = some v) :
    npSelect xs (i :: is) = v :: npSelect xs is := by
  rw [npSelect, h]

theorem npSelect_map_succ (x : ℚ) (xs : List ℚ) (idxs : List ℕ) :
    npSelect (x :: xs) (idxs.map (· + 1)) = npSelect xs idxs := by
  induction idxs with
  | nil => rfl
  | cons i is ih =>
      rw [List.map_cons, npSelect, npSelect, List.getElem?_cons_succ, ih]

theorem select_pair (actual : List ℚ) :
    ∀ pred : List ℚ, pred.length = actual.length →
      npSelect pred (npNonzero actual) =
          (pairedNonzero pred actual).map Prod.fst ∧
        npSelect actual (npNonzero actual) =
          (pairedNonzero pred actual).map Prod.snd := by
  induction actual with
  | nil =>
      intro pred h
      have hp : pred = [] := List.eq_nil_of_length_eq_zero h
      subst hp
      exact ⟨rfl, rfl⟩
  | cons a as ih =>
      intro pred h
      cases pred with
      | nil => simp at h
      | cons p ps =>
          have hlen : ps.length = as.length := by simpa using h
          obtain ⟨ih1, ih2⟩ := ih ps hlen
          by_cases ha : a = 0
          · rw [npNonzero, if_pos ha, pairedNonzero_cons, if_pos ha,
              npSelect_map_succ, npSelect_map_succ, ih1, ih2]
            exact ⟨rfl, rfl⟩
          · rw [npNonzero, if_neg ha, pairedNonzero_cons, if_neg ha]
            constructor
            · rw [npSelect_cons_some _ 0 _ p (by simp), npSelect_map_succ,
                ih1, List.map_cons]
            · rw [npSelect_cons_some _ 0 _ a (by simp), npSelect_map_succ,
                ih2, List.map_cons]

theorem pairedNonzero_ne_nil (actual : List ℚ) :
    ∀ pred : List ℚ, pred.length = actual.length →
      (∃ a ∈ actual, a ≠ 0) → pairedNonzero pred actual ≠ [] := by
  induction actual with
  | nil =>
      intro pred h hnz
      rcases hnz with ⟨a, ha, _⟩
      simp at ha
  | cons a as ih =>
      intro pred h hnz
      cases pred with
      | nil => simp at h
      | cons p ps =>
          have hlen : ps.length = as.length := by simpa using h
          rw [pairedNonzero_cons]
          by_cases ha : a = 0
          · rw [if_pos ha]
            rcases hnz with ⟨b, hb, hbne⟩
            rcases List.mem_cons.mp hb with hb | hb
            · exact absurd (hb.trans ha) hbne
            · exact ih ps hlen ⟨b, hb, hbne⟩
          · rw [if_neg ha]
            exact List.cons_ne_nil _ _

theorem npNonzero_eq_nil (actual : List ℚ) (hz : ∀ a ∈ actual, a = 0) :
    npNonzero actual = [] := by
  induction actual with
  | nil => rfl
  | cons a as ih =>
      rw [npNonzero, if_pos (hz a (List.mem_cons_self a as)),
        ih fun b hb => hz b (List.mem_cons_of_mem a hb)]
      rfl

theorem pairedNonzero_agree (actual : List ℚ) :
    ∀ pred : List ℚ,
      (∀ i, ∀ h1 : i < pred.length, ∀ h2 : i < actual.length,
          actual.get ⟨i, h2⟩ ≠ 0 → pred.get ⟨i, h1⟩ = actual.get ⟨i, h2⟩) →
      ∀ p ∈ pairedNonzero pred actual, p.1 = p.2 := by
  induction actual with
  | nil =>
      intro pred _ p hp
      rw [pairedNonzero, List.zip_nil_right] at hp
      simp at hp
  | cons a as ih =>
      intro pred hagree p hp
      cases pred with
      | nil =>
          rw [pairedNonzero, List.zip_nil_left] at hp
          simp at hp
      | cons q ps =>
          rw [pairedNonzero_cons] at hp
          by_cases ha : a = 0
          · rw [if_pos ha] at hp
            exact ih ps
              (fun i h1 h2 =>
                hagree (i + 1) (Nat.succ_lt_succ h1) (Nat.succ_lt_succ h2))
              p hp
          · rw [if_neg ha] at hp
            rcases List.mem_cons.mp hp with hp | hp
            · subst hp
              exact hagree 0 (Nat.succ_pos _) (Nat.succ_pos _) ha
            · exact ih ps
                (fun i h1 h2 =>
                  hagree (i + 1) (Nat.succ_lt_succ h1) (Nat.succ_lt_succ h2))
                p hp

theorem rmse_eq_sqrt_mseSpec (pred actual : List ℚ)
    (hlen : pred.length = actual.length) (hnz : ∃ a ∈ actual, a ≠ 0) :
    rmse pred actual = some (Real.sqrt (mseSpec pred actual : ℝ)) := by
  obtain ⟨h1, h2⟩ := select_pair actual pred hlen
  have hne := pairedNonzero_ne_nil actual pred hlen hnz
  have hL : ((pairedNonzero pred actual).map Prod.fst).zip
      ((pairedNonzero pred actual).map Prod.snd) =
        pairedNonzero pred actual := by
    rw [List.zip_map']
    simp
  rw [rmse, h1, h2, mean_squared_error,
    if_pos ⟨by simp, by simpa using hne⟩, Option.map_some', hL,
    List.length_map]
  rfl

end NCF

namespace NCF

/-- C2: for equal-length sequences with at least one nonzero actual entry,
rmse first drops every pair whose actual value equals zero and then
returns the square root of the mean of the squared differences over the
remaining pairs. -/
theorem rmse_spec_formula (pred actual : List ℚ)
    (hlen : pred.length = actual.length) (hnz : ∃ a ∈ actual, a ≠ 0) :
    rmse pred actual = some (Real.sqrt (mseSpec pred actual : ℝ)) :=
  rmse_eq_sqrt_mseSpec pred actual hlen hnz

/-- Witness for rmse_spec_formula at a concrete pair of sequences. -/
theorem rmse_spec_formula_witness :
    rmse [1, 2] [1, 0] = some (Real.sqrt (mseSpec [1, 2] [1, 0] : ℝ)) :=
  rmse_spec_formula [1, 2] [1, 0] rfl (by decide)

/-- C4: when every actual entry equals zero, every pair is dropped and the
mean over the empty remainder is rejected by the input validation of the
mean squared error, so rmse reports an error (none) rather than silently
returning a NaN value. -/
theorem rmse_all_zero_error (pred actual : List ℚ)
    (hlen : pred.length = actual.length) (hz : ∀ a ∈ actual, a = 0) :
    rmse pred actual = none := by
  rw [rmse, npNonzero_eq_nil actual hz]
  rfl

/-- Witness for rmse_all_zero_error at a concrete all-zero actual array. -/
theorem rmse_all_zero_error_witness : rmse [1, 2] [0, 0] = none :=
  rmse_all_zero_error [1, 2] [0, 0] rfl (by decide)

/-- C6: for equal-length sequences with at least one nonzero actual entry,
the rmse value exists and is non-negative, and it equals 0 whenever the
predicted sequence agrees with the actual sequence at every position where
the actual entry is nonzero. -/
theorem rmse_identity_nonneg (pred actual : List ℚ)
    (hlen : pred.length = actual.length) (hnz : ∃ a ∈ actual, a ≠ 0) :
    (∃ r : ℝ, rmse pred actual = some r ∧ 0 ≤ r) ∧
    ((∀ i, ∀ h1 : i < pred.length, ∀ h2 : i < actual.length,
        actual.get ⟨i, h2⟩ ≠ 0 → pred.get ⟨i, h1⟩ = actual.get ⟨i, h2⟩) →
      rmse pred actual = some 0) := by
  have hmain := rmse_eq_sqrt_mseSpec pred actual hlen hnz
  constructor
  · exact ⟨_, hmain, Real.sqrt_nonneg _⟩
  · intro hagree
    have hpairs : ∀ p ∈ pairedNonzero pred actual, p.1 = p.2 :=
      pairedNonzero_agree actual pred hagree
    have hzero : mseSpec pred actual = 0 := by
      rw [mseSpec]
      have hsum :
          (((pairedNonzero pred actual).map fun p => (p.1 - p.2) ^ 2).sum) =
            0 := by
        apply List.sum_eq_zero
        intro x hx
        rcases List.mem_map.mp hx with ⟨p, hp, hpx⟩
        rw [← hpx, hpairs p hp]
        ring
      rw [hsum, zero_div]
    rw [hmain, hzero]
    simp

/-- Witness for rmse_identity_nonneg: a pair agreeing on the nonzero
entries yields an rmse of 0. -/
theorem rmse_identity_nonneg_witness : rmse [5] [5] = some 0 :=
  (rmse_identity_nonneg [5] [5] rfl (by decide)).2
    fun i h1 h2 hne => rfl

end NCF

namespace Sentiment

theorem length_softmax (xs : List ℝ) : (softmax xs).length = xs.length := by
  rw [softmax, List.length_map]

theorem argmaxIdx_lt (xs : List ℝ) (h : xs ≠ []) :
    argmaxIdx xs < xs.length := by
  induction xs with
  | nil => exact absurd rfl h
  | cons x ys ih =>
      cases ys with
      | nil =>
          rw [argmaxIdx]
          simp
      | cons y zs =>
          rw [argmaxIdx]
          split
          · have hlt := ih (List.cons_ne_nil y zs)
            simpa using Nat.succ_lt_succ hlt
          · simp

/-- C7: SAM predict returns the argmax of the softmax over the class
logits plus one, so the returned label is a 1-based class index lying in
the range from 1 to class_num. -/
theorem predict_one_based (m : SAM) (t : String) (h : 0 < m.class_num) :
    SAM.predict m t = argmaxIdx (softmax (m.logitsOf t)) + 1 ∧
    1 ≤ SAM.predict m t ∧ SAM.predict m t ≤ m.class_num := by
  refine ⟨rfl, Nat.le_add_left 1 _, ?_⟩
  have hne : m.logitsOf t ≠ [] := by
    intro hc
    rw [← m.logits_len t, hc] at h
    simp at h
  have hlt : argmaxIdx (softmax (m.logitsOf t)) < m.class_num := by
    have hbound := argmaxIdx_lt (softmax (m.logitsOf t)) (by
      intro hc
      rw [softmax] at hc
      exact hne (List.map_eq_nil_iff.mp hc))
    rwa [length_softmax, m.logits_len t] at hbound
  exact Nat.succ_le_of_lt hlt

/-- Witness for predict_one_based on the concrete class_num = 5 model
configuration used in the notebook. -/
theorem predict_one_based_witness :
    1 ≤ SAM.predict samFive "good movie" ∧
    SAM.predict samFive "good movie" ≤ 5 :=
  (predict_one_based samFive "good movie" (by decide)).2

/-- C8: when some requested column is absent from the loaded CSV,
load_data returns the dataframe with all columns and prints a console
failure message; when all requested columns are present, it returns a
dataframe containing exactly the requested columns. -/
theorem load_data_fallback (csv : DataFrame) (sname : String)
    (columns : List String) :
    ((¬ ∀ c ∈ columns, c ∈ csv.colNames) →
      (load_data csv sname columns).1 = csv ∧
      ("Failed loading specified columns... Returning all columns from the "
          ++ sname ++ " split") ∈ (load_data csv sname columns).2) ∧
    ((∀ c ∈ columns, c ∈ csv.colNames) →
      (load_data csv sname columns).1.colNames = columns) := by
  constructor
  · intro h
    refine ⟨?_, ?_⟩ <;> simp [load_data, locSelect, if_neg h]
  · intro h
    simp only [load_data, locSelect, if_pos h]
    simp only [DataFrame.colNames, List.map_map]
    exact List.map_id columns

/-- Witness for load_data_fallback: requesting a column missing from the
CSV returns the full dataframe. -/
theorem load_data_fallback_witness :
    (load_data ⟨[("id", ["1"]), ("text", ["good"])]⟩ "test_no_label"
        ["id", "text", "label"]).1 =
      ⟨[("id", ["1"]), ("text", ["good"])]⟩ :=
  ((load_data_fallback ⟨[("id", ["1"]), ("text", ["good"])]⟩
      "test_no_label" ["id", "text", "label"]).1 (by decide)).1

end Sentiment
